import Mathlib

/-!
Shallow embedding of `pa1.py`: a Markovian queueing-system simulator.

Modelling conventions:
* Python floats are modelled as `ℚ` (all arithmetic in the program is
  exact field arithmetic on values produced by the variate sources;
  no claim under consideration concerns rounding).
* The random variate sources (`Uniform`, `Exponential`) are injectable
  oracles, modelled as streams `ℕ → ℚ` with a cursor index kept in the
  state; each draw reads the stream at the cursor and advances it.
  This mirrors the spec's treatment of variate generation as an
  external capability while letting the embedding count draws exactly.
* Python exceptions are modelled by explicit result constructors:
  the "customer is blocked" exception becomes `PResult.blocked`, and
  the runtime errors that can occur inside `process_event`
  (`TypeError` from `usable_server` returning `None`, an `assert`
  failure in `idle_server`, `IndexError` from `pop(0)` on an empty
  list) become `PResult.err` with an `ErrKind` tag.
* `MarkovianQueueingSystem.__init__` raises `ValueError` when `K < 2`;
  construction is therefore an `Except`.
-/

inductive EType where
  | a
  | d
deriving DecidableEq, Repr

structure Event where
  t : EType
  time : ℚ
  customer : ℕ
deriving DecidableEq, Repr

/-- The mutable state of `MarkovianQueueingSystem` (field names follow the
Python source; `used_server` is `_used_server`; `uniformIdx` and
`serviceIdx` are the cursors of the `_uniform` and `_service_interval`
variate streams). -/
structure MQS where
  m : ℤ
  K : ℤ
  mu : ℚ
  current_time : ℚ
  queue : List Event
  used_server : ℤ
  uniformIdx : ℕ
  serviceIdx : ℕ
  total_operation_time : ℚ
  blocked_number : ℕ
  total_time : ℚ
  expected_number : ℚ
  number_time_product_sum : ℚ
deriving DecidableEq, Repr

/-- `MarkovianQueueingSystem.__init__`: all fields are initialised, then
`ValueError("K >= 2")` is raised when `K < 2`. -/
def mqsInit (K : ℤ) (mu : ℚ) : Except String MQS :=
  if K < 2 then Except.error "K >= 2"
  else Except.ok
    { m := 2
      K := K
      mu := mu
      current_time := 0
      queue := []
      used_server := 0
      uniformIdx := 0
      serviceIdx := 0
      total_operation_time := 0
      blocked_number := 0
      total_time := 0
      expected_number := 0
      number_time_product_sum := 0 }

/-- `customer_number` property: `len(self.queue) + self._used_server`. -/
def customer_number (s : MQS) : ℤ :=
  (s.queue.length : ℤ) + s.used_server

/-- `usable_server` property.  The Python function has no `else` branch:
when `customer_number > 2*K` it returns `None`, modelled as `none`. -/
def usable_server (s : MQS) : Option ℤ :=
  if customer_number s < s.K then some 1
  else if customer_number s ≤ 2 * s.K then some s.m
  else none

/-- `idle_server` property value, `usable_server - _used_server`
(ignoring the embedded `assert`, which is modelled where the property is
read inside `process_event`). -/
def idle_server (s : MQS) : Option ℤ :=
  (usable_server s).map (fun u => u - s.used_server)

/-- Runtime errors that `process_event` can raise besides the blocked
exception: `TypeError` (`usable_server` returned `None` and was
subtracted from), `AssertionError` (the `idle_server` assert), and
`IndexError` (`pop(0)` on an empty queue). -/
inductive ErrKind where
  | typeErr
  | assertErr
  | popErr
deriving DecidableEq, Repr

/-- Result of `process_event`: normal return (with the optional new
departure event), the blocked exception, or a runtime error.  Each
constructor carries the state at the moment control leaves the method. -/
inductive PResult where
  | ok (s : MQS) (out : Option Event)
  | blocked (s : MQS)
  | err (k : ErrKind) (s : MQS)
deriving DecidableEq, Repr

/-- Lines 106–108 of the source: save `previous_time`, set
`current_time := e.time`, accumulate `number_time_product_sum`. -/
def timeUpdate (s : MQS) (e : Event) : MQS :=
  { s with
    current_time := e.time
    number_time_product_sum :=
      s.number_time_product_sum + (customer_number s : ℚ) * (e.time - s.current_time) }

/-- Outcome of the arrival/departure branch of `process_event`
(lines 110–119): either control continues to the promotion block, or the
blocked exception propagates. -/
inductive UpdResult where
  | go (s : MQS)
  | blocked (s : MQS)
deriving DecidableEq, Repr

/-- The arrival/departure branch of `process_event`.  For an arrival:
admit unconditionally when `customer_number < K`; when
`K ≤ customer_number < 2K` draw one uniform variate and admit iff it is
`≥ 0.5` (Python short-circuits, so no draw happens when
`customer_number ≥ 2K`); otherwise block.  For a departure: decrement
`_used_server`. -/
def updatePhase (uni : ℕ → ℚ) (s : MQS) (e : Event) : UpdResult :=
  match e.t with
  | EType.a =>
    if customer_number (timeUpdate s e) < (timeUpdate s e).K then
      UpdResult.go { timeUpdate s e with queue := (timeUpdate s e).queue ++ [e] }
    else if customer_number (timeUpdate s e) < 2 * (timeUpdate s e).K then
      if uni s.uniformIdx ≥ 1 / 2 then
        UpdResult.go
          { timeUpdate s e with
            uniformIdx := s.uniformIdx + 1
            queue := (timeUpdate s e).queue ++ [e] }
      else
        UpdResult.blocked
          { timeUpdate s e with
            uniformIdx := s.uniformIdx + 1
            blocked_number := s.blocked_number + 1 }
    else
      UpdResult.blocked { timeUpdate s e with blocked_number := s.blocked_number + 1 }
  | EType.d => UpdResult.go { timeUpdate s e with used_server := s.used_server - 1 }

/-- The promotion block of `process_event` (lines 121–127).  The Python
guard `self.customer_number > 0 and self.idle_server > 0` short-circuits:
`idle_server` (whose read evaluates `usable_server` and runs the assert)
is only evaluated when `customer_number > 0`. -/
def promotionPhase (svc : ℕ → ℚ) (s : MQS) : PResult :=
  if customer_number s > 0 then
    match usable_server s with
    | none => PResult.err ErrKind.typeErr s
    | some us =>
      if 0 ≤ us - s.used_server ∧ us - s.used_server ≤ us then
        if us - s.used_server > 0 then
          match s.queue with
          | [] => PResult.err ErrKind.popErr s
          | ae :: rest =>
            PResult.ok
              { s with
                queue := rest
                serviceIdx := s.serviceIdx + 1
                total_operation_time := s.total_operation_time + svc s.serviceIdx
                total_time := s.current_time - ae.time + svc s.serviceIdx
                used_server := s.used_server + 1 }
              (some { t := EType.d, time := s.current_time + svc s.serviceIdx, customer := ae.customer })
        else PResult.ok s none
      else PResult.err ErrKind.assertErr s
  else PResult.ok s none

/-- `MarkovianQueueingSystem.process_event`. -/
def process_event (uni svc : ℕ → ℚ) (s : MQS) (e : Event) : PResult :=
  match updatePhase uni s e with
  | UpdResult.go s1 => promotionPhase svc s1
  | UpdResult.blocked s1 => PResult.blocked s1

/-- The state carried by a `process_event` result (the state of the
Python object when the call returns or the exception propagates). -/
def resState : PResult → MQS
  | PResult.ok s _ => s
  | PResult.blocked s => s
  | PResult.err _ s => s

/-- Whether a `process_event` result is the blocked exception. -/
def isBlocked : PResult → Bool
  | PResult.blocked _ => true
  | _ => false

/-- The `Simulator` object state (its `mqs`, `_lambda_`, `_times`, and
`_event_list` fields; the arrival-interval stream is an oracle as for
`MQS`). -/
structure Simulator where
  mqs : MQS
  lambda_ : ℚ
  times : ℕ
  event_list : List Event
deriving DecidableEq, Repr

/-- `Simulator.__init__`: no validation is performed on any argument;
construction always succeeds. -/
def simulatorInit (mqs : MQS) (lambda_ : ℚ) (times : ℕ) : Except String Simulator :=
  Except.ok { mqs := mqs, lambda_ := lambda_, times := times, event_list := [] }

/-- `Simulator._append_event`: append, then stable-sort the whole list by
`time` (Python's `list.sort` is stable; a stable sort by a total
preorder key is a unique function, and `List.insertionSort` is stable,
so it implements `list.sort(key=time)` exactly). -/
def append_event (l : List Event) (e : Event) : List Event :=
  List.insertionSort (fun x y => x.time ≤ y.time) (l ++ [e])

/-- `self._event_list.pop(0)` at the head of the driver loop:
`IndexError` (the condition the specification calls the empty-queue
failure) on an empty list, otherwise the head and the remaining list. -/
def popEarliest (l : List Event) : Except String (Event × List Event) :=
  match l with
  | [] => Except.error "pop from empty list"
  | e :: rest => Except.ok (e, rest)

/-- The event list obtained by inserting the events of `es` in order
into an initially empty list via `_append_event`. -/
def buildQueue (es : List Event) : List Event :=
  es.foldl append_event []

/-- The per-sweep-point "average time" summary computed by `__main__`
(line 192): `MQS.total_time / SIMULATOR.times`. -/
def averageTimeSummary (s : MQS) (times : ℚ) : ℚ :=
  s.total_time / times

/-! ### Basic simp lemmas about `timeUpdate` and `customer_number` -/

@[simp] theorem timeUpdate_K (s : MQS) (e : Event) : (timeUpdate s e).K = s.K := rfl
@[simp] theorem timeUpdate_m (s : MQS) (e : Event) : (timeUpdate s e).m = s.m := rfl
@[simp] theorem timeUpdate_queue (s : MQS) (e : Event) : (timeUpdate s e).queue = s.queue := rfl
@[simp] theorem timeUpdate_used (s : MQS) (e : Event) :
    (timeUpdate s e).used_server = s.used_server := rfl
@[simp] theorem timeUpdate_uniformIdx (s : MQS) (e : Event) :
    (timeUpdate s e).uniformIdx = s.uniformIdx := rfl
@[simp] theorem timeUpdate_serviceIdx (s : MQS) (e : Event) :
    (timeUpdate s e).serviceIdx = s.serviceIdx := rfl
@[simp] theorem timeUpdate_totop (s : MQS) (e : Event) :
    (timeUpdate s e).total_operation_time = s.total_operation_time := rfl
@[simp] theorem timeUpdate_blocked (s : MQS) (e : Event) :
    (timeUpdate s e).blocked_number = s.blocked_number := rfl
@[simp] theorem timeUpdate_total_time (s : MQS) (e : Event) :
    (timeUpdate s e).total_time = s.total_time := rfl
@[simp] theorem timeUpdate_current_time (s : MQS) (e : Event) :
    (timeUpdate s e).current_time = e.time := rfl
@[simp] theorem timeUpdate_ntps (s : MQS) (e : Event) :
    (timeUpdate s e).number_time_product_sum =
      s.number_time_product_sum + (customer_number s : ℚ) * (e.time - s.current_time) := rfl
@[simp] theorem customer_number_timeUpdate (s : MQS) (e : Event) :
    customer_number (timeUpdate s e) = customer_number s := rfl

/-! ### Characterisations of the two phases of `process_event` -/

/-- The promotion block never raises the blocked exception. -/
theorem promotionPhase_ne_blocked (svc : ℕ → ℚ) (s s' : MQS) :
    promotionPhase svc s ≠ PResult.blocked s' := by
  unfold promotionPhase
  split
  · split
    · intro h; cases h
    · split
      · split
        · split
          · intro h; cases h
          · intro h; cases h
        · intro h; cases h
      · intro h; cases h
  · intro h; cases h

/-- If `updatePhase` raises the blocked exception, the event was an
arrival, only `current_time`, `number_time_product_sum`, `blocked_number`
and possibly the uniform cursor changed, and `blocked_number` was
incremented by exactly one. -/
theorem updatePhase_blocked_spec (uni : ℕ → ℚ) (s : MQS) (e : Event) (s1 : MQS)
    (h : updatePhase uni s e = UpdResult.blocked s1) :
    e.t = EType.a ∧ s1.queue = s.queue ∧ s1.used_server = s.used_server ∧
    s1.serviceIdx = s.serviceIdx ∧ s1.total_operation_time = s.total_operation_time ∧
    s1.total_time = s.total_time ∧ s1.current_time = e.time ∧
    s1.blocked_number = s.blocked_number + 1 ∧
    s1.number_time_product_sum =
      s.number_time_product_sum + (customer_number s : ℚ) * (e.time - s.current_time) ∧
    s1.K = s.K ∧ s1.m = s.m := by
  cases ht : e.t with
  | a =>
    simp only [updatePhase, ht] at h
    split at h
    · cases h
    · split at h
      · split at h
        · cases h
        · cases h; simp [timeUpdate]
      · cases h; simp [timeUpdate]
  | d =>
    simp only [updatePhase, ht] at h
    cases h

/-- If `updatePhase` lets control continue, the carried state agrees with
`s` on the service cursor, operation-time and sojourn-time accumulators,
the blocked counter, `K` and `m`, and `current_time` is the event's
time. -/
theorem updatePhase_go_frame (uni : ℕ → ℚ) (s : MQS) (e : Event) (s1 : MQS)
    (h : updatePhase uni s e = UpdResult.go s1) :
    s1.serviceIdx = s.serviceIdx ∧ s1.total_operation_time = s.total_operation_time ∧
    s1.total_time = s.total_time ∧ s1.blocked_number = s.blocked_number ∧
    s1.current_time = e.time ∧ s1.K = s.K ∧ s1.m = s.m := by
  cases ht : e.t with
  | a =>
    simp only [updatePhase, ht] at h
    split at h
    · cases h; simp [timeUpdate]
    · split at h
      · split at h
        · cases h; simp [timeUpdate]
        · cases h
      · cases h
  | d =>
    simp only [updatePhase, ht] at h
    cases h; simp [timeUpdate]

/-- Arrival with `customer_number < K`: admitted unconditionally, no
uniform draw. -/
theorem updatePhase_a_low (uni : ℕ → ℚ) (s : MQS) (e : Event)
    (ht : e.t = EType.a) (hn : customer_number s < s.K) :
    updatePhase uni s e = UpdResult.go { timeUpdate s e with queue := s.queue ++ [e] } := by
  simp only [updatePhase, ht, customer_number_timeUpdate, timeUpdate_K]
  rw [if_pos hn]
  rfl

/-- Arrival with `K ≤ customer_number < 2K`: one uniform draw decides
admission. -/
theorem updatePhase_a_mid (uni : ℕ → ℚ) (s : MQS) (e : Event)
    (ht : e.t = EType.a) (hn1 : ¬ customer_number s < s.K)
    (hn2 : customer_number s < 2 * s.K) :
    updatePhase uni s e =
      if uni s.uniformIdx ≥ 1 / 2 then
        UpdResult.go
          { timeUpdate s e with uniformIdx := s.uniformIdx + 1, queue := s.queue ++ [e] }
      else
        UpdResult.blocked
          { timeUpdate s e with
            uniformIdx := s.uniformIdx + 1, blocked_number := s.blocked_number + 1 } := by
  simp only [updatePhase, ht, customer_number_timeUpdate, timeUpdate_K]
  rw [if_neg hn1, if_pos hn2]
  rfl

/-- Arrival with `customer_number ≥ 2K`: blocked, no uniform draw. -/
theorem updatePhase_a_high (uni : ℕ → ℚ) (s : MQS) (e : Event)
    (ht : e.t = EType.a) (hn1 : ¬ customer_number s < s.K)
    (hn2 : ¬ customer_number s < 2 * s.K) :
    updatePhase uni s e =
      UpdResult.blocked { timeUpdate s e with blocked_number := s.blocked_number + 1 } := by
  simp only [updatePhase, ht, customer_number_timeUpdate, timeUpdate_K]
  rw [if_neg hn1, if_neg hn2]

/-- Departure: decrement `_used_server`. -/
theorem updatePhase_d (uni : ℕ → ℚ) (s : MQS) (e : Event) (ht : e.t = EType.d) :
    updatePhase uni s e =
      UpdResult.go { timeUpdate s e with used_server := s.used_server - 1 } := by
  simp only [updatePhase, ht]

/-- Unfolding of `promotionPhase` once `usable_server` is known to be
`some us` and the guard's first conjunct holds. -/
theorem promotionPhase_some (svc : ℕ → ℚ) (s : MQS) (us : ℤ)
    (hpos : customer_number s > 0) (h : usable_server s = some us) :
    promotionPhase svc s =
      if 0 ≤ us - s.used_server ∧ us - s.used_server ≤ us then
        if us - s.used_server > 0 then
          match s.queue with
          | [] => PResult.err ErrKind.popErr s
          | ae :: rest =>
            PResult.ok
              { s with
                queue := rest
                serviceIdx := s.serviceIdx + 1
                total_operation_time := s.total_operation_time + svc s.serviceIdx
                total_time := s.current_time - ae.time + svc s.serviceIdx
                used_server := s.used_server + 1 }
              (some { t := EType.d, time := s.current_time + svc s.serviceIdx,
                      customer := ae.customer })
        else PResult.ok s none
      else PResult.err ErrKind.assertErr s := by
  unfold promotionPhase
  rw [if_pos hpos, h]

/-- Under the idle-server invariant preconditions the promotion block
never errors: it either leaves the state untouched and returns no event,
or promotes exactly the queue head. -/
theorem promotionPhase_sound (svc : ℕ → ℚ) (s1 : MQS)
    (hK : 2 ≤ s1.K) (hm : s1.m = 2)
    (hused0 : 0 ≤ s1.used_server)
    (hn2K : customer_number s1 ≤ 2 * s1.K)
    (hub : s1.used_server ≤ if customer_number s1 < s1.K then 1 else 2) :
    (promotionPhase svc s1 = PResult.ok s1 none) ∨
    (∃ ae rest, s1.queue = ae :: rest ∧
      s1.used_server + 1 ≤ (if customer_number s1 < s1.K then 1 else 2) ∧
      promotionPhase svc s1 =
        PResult.ok
          { s1 with
            queue := rest
            serviceIdx := s1.serviceIdx + 1
            total_operation_time := s1.total_operation_time + svc s1.serviceIdx
            total_time := s1.current_time - ae.time + svc s1.serviceIdx
            used_server := s1.used_server + 1 }
          (some { t := EType.d, time := s1.current_time + svc s1.serviceIdx,
                  customer := ae.customer })) := by
  have hn0 : 0 ≤ customer_number s1 := by
    have hql : (0 : ℤ) ≤ (s1.queue.length : ℤ) := Int.natCast_nonneg _
    unfold customer_number
    omega
  have husval : usable_server s1 = some (if customer_number s1 < s1.K then 1 else 2) := by
    unfold usable_server
    by_cases h1 : customer_number s1 < s1.K
    · rw [if_pos h1, if_pos h1]
    · rw [if_neg h1, if_pos hn2K, if_neg h1, hm]
  by_cases hpos : customer_number s1 > 0
  · rw [promotionPhase_some svc s1 _ hpos husval]
    have hassert :
        0 ≤ (if customer_number s1 < s1.K then (1 : ℤ) else 2) - s1.used_server ∧
        (if customer_number s1 < s1.K then (1 : ℤ) else 2) - s1.used_server ≤
          (if customer_number s1 < s1.K then (1 : ℤ) else 2) := by
      constructor <;> omega
    rw [if_pos hassert]
    by_cases hidle : (if customer_number s1 < s1.K then (1 : ℤ) else 2) - s1.used_server > 0
    · rw [if_pos hidle]
      cases hq : s1.queue with
      | nil =>
        exfalso
        have hlen : customer_number s1 = s1.used_server := by
          unfold customer_number; rw [hq]; simp
        by_cases h1 : customer_number s1 < s1.K <;> simp only [h1, if_true, if_false] at hidle <;>
          omega
      | cons ae rest =>
        right
        exact ⟨ae, rest, rfl, by omega, rfl⟩
    · rw [if_neg hidle]
      left; rfl
  · unfold promotionPhase
    rw [if_neg hpos]
    left; rfl

/-! ### Driver-consistent reachability -/

/-- Events the driver loop can feed into `process_event`: an arrival at
any time, or a departure when at least one generated departure event is
still outstanding.  This over-approximates the actual driver, in which
every departure popped from the event list was returned by an earlier
`process_event` call and is consumed exactly once. -/
def Allowed (e : Event) (p : ℕ) : Prop :=
  e.t = EType.a ∨ (e.t = EType.d ∧ 0 < p)

/-- Number of departure events produced by one call. -/
def outCount (out : Option Event) : ℕ :=
  match out with
  | none => 0
  | some _ => 1

/-- Number of outstanding departure events consumed by one call. -/
def consCount (e : Event) : ℕ :=
  match e.t with
  | EType.a => 0
  | EType.d => 1

/-- `Reach uni svc K mu s p`: state `s` arises, with `p` outstanding
generated departure events, from a freshly constructed
`MarkovianQueueingSystem K mu` by a sequence of `process_event` calls
feeding allowed events (each returned departure event becomes
outstanding, each processed departure consumes one). -/
inductive Reach (uni svc : ℕ → ℚ) (K : ℤ) (mu : ℚ) : MQS → ℕ → Prop where
  | init (s : MQS) (h : mqsInit K mu = Except.ok s) : Reach uni svc K mu s 0
  | stepOk (s : MQS) (p : ℕ) (e : Event) (s' : MQS) (out : Option Event)
      (hr : Reach uni svc K mu s p) (ha : Allowed e p)
      (hp : process_event uni svc s e = PResult.ok s' out) :
      Reach uni svc K mu s' (p - consCount e + outCount out)
  | stepBlocked (s : MQS) (p : ℕ) (e : Event) (s' : MQS)
      (hr : Reach uni svc K mu s p) (ha : Allowed e p)
      (hp : process_event uni svc s e = PResult.blocked s') :
      Reach uni svc K mu s' p

/-- The inductive invariant: the server count `m` is 2, `K` is at least
2, the busy-server count equals the number of outstanding departures
(hence is non-negative), the customer count never exceeds `2K`, and the
busy-server count never exceeds the usable-server count. -/
def SysInv (K : ℤ) (s : MQS) (p : ℕ) : Prop :=
  s.K = K ∧ s.m = 2 ∧ 2 ≤ s.K ∧ s.used_server = (p : ℤ) ∧
  customer_number s ≤ 2 * s.K ∧
  s.used_server ≤ (if customer_number s < s.K then 1 else 2)

theorem inv_init (K : ℤ) (mu : ℚ) (s : MQS) (h : mqsInit K mu = Except.ok s) :
    SysInv K s 0 := by
  unfold mqsInit at h
  split at h
  · cases h
  · rename_i hK
    cases h
    refine ⟨rfl, rfl, by show (2 : ℤ) ≤ K; omega, rfl, ?_, ?_⟩
    · show (0 : ℤ) + 0 ≤ 2 * K
      omega
    · show (0 : ℤ) ≤ if (0 : ℤ) + 0 < K then 1 else 2
      split <;> omega

/-- If the state entering the promotion block satisfies the invariant
data (with `p'` outstanding departures), the block returns normally and
the invariant holds afterwards, counting any produced departure. -/
theorem inv_promotion (svc : ℕ → ℚ) (K : ℤ) (s1 : MQS) (p' : ℕ)
    (hK : s1.K = K) (hm : s1.m = 2) (h2K : 2 ≤ s1.K)
    (hused : s1.used_server = (p' : ℤ))
    (hn2K : customer_number s1 ≤ 2 * s1.K)
    (hub : s1.used_server ≤ (if customer_number s1 < s1.K then 1 else 2)) :
    ∃ s' out, promotionPhase svc s1 = PResult.ok s' out ∧
      SysInv K s' (p' + outCount out) := by
  have hused0 : 0 ≤ s1.used_server := by omega
  rcases promotionPhase_sound svc s1 h2K hm hused0 hn2K hub with h | ⟨ae, rest, hq, hlt, h⟩
  · exact ⟨s1, none, h, hK, hm, h2K, by simpa [outCount] using hused, hn2K, hub⟩
  · refine ⟨_, _, h, ?_⟩
    have hcn : customer_number
        { s1 with
          queue := rest
          serviceIdx := s1.serviceIdx + 1
          total_operation_time := s1.total_operation_time + svc s1.serviceIdx
          total_time := s1.current_time - ae.time + svc s1.serviceIdx
          used_server := s1.used_server + 1 } = customer_number s1 := by
      simp [customer_number, hq]
      omega
    refine ⟨hK, hm, h2K, ?_, ?_, ?_⟩
    · simp [outCount]
      omega
    · rw [hcn]; exact hn2K
    · rw [hcn]
      simpa using hlt

/-! ### Field-wise descriptions of the update-phase branches -/

theorem updatePhase_a_low_fields (uni : ℕ → ℚ) (s : MQS) (e : Event)
    (ht : e.t = EType.a) (hn : customer_number s < s.K) :
    ∃ s1, updatePhase uni s e = UpdResult.go s1 ∧
      s1.K = s.K ∧ s1.m = s.m ∧ s1.queue = s.queue ++ [e] ∧
      s1.used_server = s.used_server ∧ s1.uniformIdx = s.uniformIdx ∧
      s1.serviceIdx = s.serviceIdx ∧ s1.blocked_number = s.blocked_number ∧
      s1.current_time = e.time ∧ s1.total_time = s.total_time ∧
      s1.total_operation_time = s.total_operation_time :=
  ⟨_, updatePhase_a_low uni s e ht hn, rfl, rfl, rfl, rfl, rfl, rfl, rfl, rfl, rfl, rfl⟩

theorem updatePhase_a_mid_admit_fields (uni : ℕ → ℚ) (s : MQS) (e : Event)
    (ht : e.t = EType.a) (hn1 : ¬ customer_number s < s.K)
    (hn2 : customer_number s < 2 * s.K) (hdraw : uni s.uniformIdx ≥ 1 / 2) :
    ∃ s1, updatePhase uni s e = UpdResult.go s1 ∧
      s1.K = s.K ∧ s1.m = s.m ∧ s1.queue = s.queue ++ [e] ∧
      s1.used_server = s.used_server ∧ s1.uniformIdx = s.uniformIdx + 1 ∧
      s1.serviceIdx = s.serviceIdx ∧ s1.blocked_number = s.blocked_number ∧
      s1.current_time = e.time ∧ s1.total_time = s.total_time ∧
      s1.total_operation_time = s.total_operation_time := by
  have h := updatePhase_a_mid uni s e ht hn1 hn2
  rw [if_pos hdraw] at h
  exact ⟨_, h, rfl, rfl, rfl, rfl, rfl, rfl, rfl, rfl, rfl, rfl⟩

theorem updatePhase_a_mid_reject_fields (uni : ℕ → ℚ) (s : MQS) (e : Event)
    (ht : e.t = EType.a) (hn1 : ¬ customer_number s < s.K)
    (hn2 : customer_number s < 2 * s.K) (hdraw : ¬ uni s.uniformIdx ≥ 1 / 2) :
    ∃ s1, updatePhase uni s e = UpdResult.blocked s1 ∧
      s1.K = s.K ∧ s1.m = s.m ∧ s1.queue = s.queue ∧
      s1.used_server = s.used_server ∧ s1.uniformIdx = s.uniformIdx + 1 ∧
      s1.blocked_number = s.blocked_number + 1 := by
  have h := updatePhase_a_mid uni s e ht hn1 hn2
  rw [if_neg hdraw] at h
  exact ⟨_, h, rfl, rfl, rfl, rfl, rfl, rfl⟩

theorem updatePhase_a_high_fields (uni : ℕ → ℚ) (s : MQS) (e : Event)
    (ht : e.t = EType.a) (hn1 : ¬ customer_number s < s.K)
    (hn2 : ¬ customer_number s < 2 * s.K) :
    ∃ s1, updatePhase uni s e = UpdResult.blocked s1 ∧
      s1.K = s.K ∧ s1.m = s.m ∧ s1.queue = s.queue ∧
      s1.used_server = s.used_server ∧ s1.uniformIdx = s.uniformIdx ∧
      s1.blocked_number = s.blocked_number + 1 :=
  ⟨_, updatePhase_a_high uni s e ht hn1 hn2, rfl, rfl, rfl, rfl, rfl, rfl⟩

theorem updatePhase_d_fields (uni : ℕ → ℚ) (s : MQS) (e : Event)
    (ht : e.t = EType.d) :
    ∃ s1, updatePhase uni s e = UpdResult.go s1 ∧
      s1.K = s.K ∧ s1.m = s.m ∧ s1.queue = s.queue ∧
      s1.used_server = s.used_server - 1 ∧ s1.uniformIdx = s.uniformIdx ∧
      s1.serviceIdx = s.serviceIdx ∧ s1.blocked_number = s.blocked_number ∧
      s1.current_time = e.time ∧ s1.total_time = s.total_time ∧
      s1.total_operation_time = s.total_operation_time :=
  ⟨_, updatePhase_d uni s e ht, rfl, rfl, rfl, rfl, rfl, rfl, rfl, rfl, rfl, rfl⟩

theorem customer_number_append (s1 s : MQS) (e : Event)
    (hq : s1.queue = s.queue ++ [e]) (hu : s1.used_server = s.used_server) :
    customer_number s1 = customer_number s + 1 := by
  unfold customer_number
  rw [hq, hu]
  push_cast [List.length_append, List.length_singleton]
  ring

theorem customer_number_same (s1 s : MQS)
    (hq : s1.queue = s.queue) (hu : s1.used_server = s.used_server) :
    customer_number s1 = customer_number s := by
  unfold customer_number
  rw [hq, hu]

theorem customer_number_dec (s1 s : MQS)
    (hq : s1.queue = s.queue) (hu : s1.used_server = s.used_server - 1) :
    customer_number s1 = customer_number s - 1 := by
  unfold customer_number
  rw [hq, hu]
  ring

/-- One allowed step from an invariant state either returns normally or
blocks (never errors), and the invariant is preserved with the correct
outstanding-departure bookkeeping. -/
theorem inv_step (uni svc : ℕ → ℚ) (K : ℤ) (s : MQS) (p : ℕ) (e : Event)
    (hinv : SysInv K s p) (ha : Allowed e p) :
    (∃ s' out, process_event uni svc s e = PResult.ok s' out ∧
       SysInv K s' (p - consCount e + outCount out)) ∨
    (∃ s', process_event uni svc s e = PResult.blocked s' ∧ SysInv K s' p ∧
       e.t = EType.a) := by
  obtain ⟨hKK, hm, h2K, hused, hn2K, hub⟩ := hinv
  have hub2 : s.used_server ≤ 2 := by split at hub <;> omega
  cases ht : e.t with
  | a =>
    have hcons : consCount e = 0 := by simp [consCount, ht]
    by_cases hn1 : customer_number s < s.K
    · obtain ⟨s1, hupd, hK1, hm1, hq1, hus1, _, _, _, _, _, _⟩ :=
        updatePhase_a_low_fields uni s e ht hn1
      have hcn1 : customer_number s1 = customer_number s + 1 :=
        customer_number_append s1 s e hq1 hus1
      obtain ⟨s', out, hprom, hinv'⟩ :=
        inv_promotion svc K s1 p (hK1.trans hKK) (hm1.trans hm)
          (by rw [hK1]; omega) (hus1.trans hused)
          (by rw [hcn1, hK1]; omega)
          (by
            rw [hcn1, hK1, hus1]
            rw [if_pos hn1] at hub
            split <;> omega)
      left
      refine ⟨s', out, ?_, ?_⟩
      · unfold process_event
        rw [hupd]
        exact hprom
      · rw [hcons]
        simpa using hinv'
    · by_cases hn2 : customer_number s < 2 * s.K
      · by_cases hdraw : uni s.uniformIdx ≥ 1 / 2
        · obtain ⟨s1, hupd, hK1, hm1, hq1, hus1, _, _, _, _, _, _⟩ :=
            updatePhase_a_mid_admit_fields uni s e ht hn1 hn2 hdraw
          have hcn1 : customer_number s1 = customer_number s + 1 :=
            customer_number_append s1 s e hq1 hus1
          obtain ⟨s', out, hprom, hinv'⟩ :=
            inv_promotion svc K s1 p (hK1.trans hKK) (hm1.trans hm)
              (by rw [hK1]; omega) (hus1.trans hused)
              (by rw [hcn1, hK1]; omega)
              (by
                rw [hcn1, hK1, hus1]
                have hlt : ¬ customer_number s + 1 < s.K := by omega
                rw [if_neg hlt]
                omega)
          left
          refine ⟨s', out, ?_, ?_⟩
          · unfold process_event
            rw [hupd]
            exact hprom
          · rw [hcons]
            simpa using hinv'
        · obtain ⟨s1, hupd, hK1, hm1, hq1, hus1, _, _⟩ :=
            updatePhase_a_mid_reject_fields uni s e ht hn1 hn2 hdraw
          have hcn1 : customer_number s1 = customer_number s :=
            customer_number_same s1 s hq1 hus1
          right
          refine ⟨s1, ?_, ⟨hK1.trans hKK, hm1.trans hm, by rw [hK1]; omega,
            hus1.trans hused, by rw [hcn1, hK1]; omega, ?_⟩, rfl⟩
          · unfold process_event
            rw [hupd]
          · rw [hcn1, hK1, hus1]
            exact hub
      · obtain ⟨s1, hupd, hK1, hm1, hq1, hus1, _, _⟩ :=
          updatePhase_a_high_fields uni s e ht hn1 hn2
        have hcn1 : customer_number s1 = customer_number s :=
          customer_number_same s1 s hq1 hus1
        right
        refine ⟨s1, ?_, ⟨hK1.trans hKK, hm1.trans hm, by rw [hK1]; omega,
          hus1.trans hused, by rw [hcn1, hK1]; omega, ?_⟩, rfl⟩
        · unfold process_event
          rw [hupd]
        · rw [hcn1, hK1, hus1]
          exact hub
  | d =>
    have hp0 : 0 < p := by
      rcases ha with ha | ⟨_, hp⟩
      · rw [ht] at ha; cases ha
      · exact hp
    have hcons : consCount e = 1 := by simp [consCount, ht]
    obtain ⟨s1, hupd, hK1, hm1, hq1, hus1, _, _, _, _, _, _⟩ :=
      updatePhase_d_fields uni s e ht
    have hcn1 : customer_number s1 = customer_number s - 1 :=
      customer_number_dec s1 s hq1 hus1
    obtain ⟨s', out, hprom, hinv'⟩ :=
      inv_promotion svc K s1 (p - 1) (hK1.trans hKK) (hm1.trans hm)
        (by rw [hK1]; omega)
        (by rw [hus1, hused]; omega)
        (by rw [hcn1, hK1]; omega)
        (by
          rw [hcn1, hK1, hus1]
          split <;> omega)
    left
    refine ⟨s', out, ?_, ?_⟩
    · unfold process_event
      rw [hupd]
      exact hprom
    · rw [hcons]
      exact hinv'

/-- Every reachable state satisfies the inductive invariant. -/
theorem reach_inv (uni svc : ℕ → ℚ) (K : ℤ) (mu : ℚ) (s : MQS) (p : ℕ)
    (h : Reach uni svc K mu s p) : SysInv K s p := by
  induction h with
  | init s h => exact inv_init K mu s h
  | stepOk s p e s' out hr ha hp ih =>
    rcases inv_step uni svc K s p e ih ha with ⟨s'', out', hps, hinv'⟩ | ⟨s'', hps, _, _⟩
    · rw [hp] at hps
      cases hps
      exact hinv'
    · rw [hp] at hps
      cases hps
  | stepBlocked s p e s' hr ha hp ih =>
    rcases inv_step uni svc K s p e ih ha with ⟨s'', out', hps, _⟩ | ⟨s'', hps, hinv', _⟩
    · rw [hp] at hps
      cases hps
    · rw [hp] at hps
      cases hps
      exact hinv'

/-- A `process_event` call from a reachable state on an allowed event
never hits a runtime error. -/
theorem process_event_no_error (uni svc : ℕ → ℚ) (K : ℤ) (mu : ℚ) (s : MQS) (p : ℕ)
    (e : Event) (h : Reach uni svc K mu s p) (ha : Allowed e p) :
    ∀ k s2, process_event uni svc s e ≠ PResult.err k s2 := by
  intro k s2 hcontra
  rcases inv_step uni svc K s p e (reach_inv uni svc K mu s p h) ha with
    ⟨s', out, hps, _⟩ | ⟨s', hps, _, _⟩ <;> rw [hcontra] at hps <;> cases hps

/-- C1: in every state reachable by `process_event` calls from a fresh
state (with departure events fed back only when outstanding, as the
driver does), the idle-server bound `0 ≤ idleServers ≤ usableServers`
holds at the end of every call. -/
theorem c1_idle_server_bound (uni svc : ℕ → ℚ) (K : ℤ) (mu : ℚ) (s : MQS) (p : ℕ)
    (h : Reach uni svc K mu s p) :
    ∃ u i, usable_server s = some u ∧ idle_server s = some i ∧ 0 ≤ i ∧ i ≤ u := by
  obtain ⟨hKK, hm, h2K, hused, hn2K, hub⟩ := reach_inv uni svc K mu s p h
  have husval : usable_server s = some (if customer_number s < s.K then 1 else 2) := by
    unfold usable_server
    by_cases h1 : customer_number s < s.K
    · rw [if_pos h1, if_pos h1]
    · rw [if_neg h1, if_pos hn2K, if_neg h1, hm]
  refine ⟨if customer_number s < s.K then 1 else 2,
          (if customer_number s < s.K then 1 else 2) - s.used_server, husval, ?_, ?_, ?_⟩
  · unfold idle_server
    rw [husval]
    rfl
  · omega
  · omega

theorem c1_witness :
    ∃ u i,
      usable_server (MQS.mk 2 2 1 0 [] 0 0 0 0 0 0 0 0) = some u ∧
      idle_server (MQS.mk 2 2 1 0 [] 0 0 0 0 0 0 0 0) = some i ∧ 0 ≤ i ∧ i ≤ u :=
  c1_idle_server_bound (fun _ => 3 / 4) (fun _ => 1) 2 1 (MQS.mk 2 2 1 0 [] 0 0 0 0 0 0 0 0) 0
    (Reach.init _ rfl)

/-- C8: in every reachable state the customer count is at most `2K`, so
`usable_server` never falls into the undefined region: it always
evaluates to `some` of either `1` or `m = 2`. -/
theorem c8_usable_server_defined (uni svc : ℕ → ℚ) (K : ℤ) (mu : ℚ) (s : MQS) (p : ℕ)
    (h : Reach uni svc K mu s p) :
    customer_number s ≤ 2 * s.K ∧
    ∃ u, usable_server s = some u ∧ (u = 1 ∨ u = s.m) ∧ s.m = 2 := by
  obtain ⟨hKK, hm, h2K, hused, hn2K, hub⟩ := reach_inv uni svc K mu s p h
  refine ⟨hn2K, ?_⟩
  unfold usable_server
  by_cases h1 : customer_number s < s.K
  · exact ⟨1, by rw [if_pos h1], Or.inl rfl, hm⟩
  · exact ⟨s.m, by rw [if_neg h1, if_pos hn2K], Or.inr rfl, hm⟩

theorem c8_witness :
    customer_number (MQS.mk 2 2 1 0 [] 0 0 0 0 0 0 0 0) ≤
        2 * (MQS.mk 2 2 1 0 [] 0 0 0 0 0 0 0 0).K ∧
      ∃ u, usable_server (MQS.mk 2 2 1 0 [] 0 0 0 0 0 0 0 0) = some u ∧
        (u = 1 ∨ u = (MQS.mk 2 2 1 0 [] 0 0 0 0 0 0 0 0).m) ∧
        (MQS.mk 2 2 1 0 [] 0 0 0 0 0 0 0 0).m = 2 :=
  c8_usable_server_defined (fun _ => 3 / 4) (fun _ => 1) 2 1
    (MQS.mk 2 2 1 0 [] 0 0 0 0 0 0 0 0) 0 (Reach.init _ rfl)

/-- C9: from a reachable state, whenever the promotion guard
(`customer_number > 0` and `idle_server > 0`, evaluated on the state the
arrival/departure branch produced) is true, the waiting queue is
non-empty, so the `pop(0)` never executes on an empty queue (and the
call never raises the corresponding `IndexError`). -/
theorem c9_promotion_pop_safe (uni svc : ℕ → ℚ) (K : ℤ) (mu : ℚ) (s : MQS) (p : ℕ)
    (e : Event) (h : Reach uni svc K mu s p) (ha : Allowed e p)
    (s1 : MQS) (hupd : updatePhase uni s e = UpdResult.go s1)
    (us : ℤ) (hus : usable_server s1 = some us)
    (hpos : 0 < customer_number s1) (hidle : 0 < us - s1.used_server) :
    s1.queue ≠ [] ∧
      ∀ s2, process_event uni svc s e ≠ PResult.err ErrKind.popErr s2 := by
  have hpe : process_event uni svc s e = promotionPhase svc s1 := by
    unfold process_event
    rw [hupd]
  constructor
  · intro hq
    by_cases hassert : 0 ≤ us - s1.used_server ∧ us - s1.used_server ≤ us
    · have hres : promotionPhase svc s1 = PResult.err ErrKind.popErr s1 := by
        rw [promotionPhase_some svc s1 us hpos hus, if_pos hassert, if_pos hidle, hq]
      exact process_event_no_error uni svc K mu s p e h ha ErrKind.popErr s1
        (by rw [hpe, hres])
    · have hres : promotionPhase svc s1 = PResult.err ErrKind.assertErr s1 := by
        rw [promotionPhase_some svc s1 us hpos hus, if_neg hassert]
      exact process_event_no_error uni svc K mu s p e h ha ErrKind.assertErr s1
        (by rw [hpe, hres])
  · exact fun s2 => process_event_no_error uni svc K mu s p e h ha ErrKind.popErr s2

theorem c9_witness :
    ({ timeUpdate (MQS.mk 2 2 1 0 [] 0 0 0 0 0 0 0 0) (Event.mk EType.a 1 1) with
        queue := (MQS.mk 2 2 1 0 [] 0 0 0 0 0 0 0 0).queue ++ [Event.mk EType.a 1 1] } :
          MQS).queue ≠ [] ∧
      process_event (fun _ => 3 / 4) (fun _ => 1) (MQS.mk 2 2 1 0 [] 0 0 0 0 0 0 0 0)
          (Event.mk EType.a 1 1) ≠
        PResult.err ErrKind.popErr (MQS.mk 2 2 1 0 [] 0 0 0 0 0 0 0 0) :=
  have h9 := c9_promotion_pop_safe (fun _ => 3 / 4) (fun _ => 1) 2 1
    (MQS.mk 2 2 1 0 [] 0 0 0 0 0 0 0 0) 0 (Event.mk EType.a 1 1)
    (Reach.init _ rfl) (Or.inl rfl)
    ({ timeUpdate (MQS.mk 2 2 1 0 [] 0 0 0 0 0 0 0 0) (Event.mk EType.a 1 1) with
        queue := (MQS.mk 2 2 1 0 [] 0 0 0 0 0 0 0 0).queue ++ [Event.mk EType.a 1 1] })
    (updatePhase_a_low (fun _ => 3 / 4) (MQS.mk 2 2 1 0 [] 0 0 0 0 0 0 0 0)
      (Event.mk EType.a 1 1) rfl (by decide))
    1 (by decide) (by decide) (by decide)
  ⟨h9.1, h9.2 _⟩

/-! ### Per-call claims: blocking frame, admission policy -/

/-- Inversion: a blocked `process_event` call blocked in the
arrival/departure branch (the promotion block never blocks). -/
theorem process_event_blocked_inv (uni svc : ℕ → ℚ) (s : MQS) (e : Event) (s' : MQS)
    (h : process_event uni svc s e = PResult.blocked s') :
    updatePhase uni s e = UpdResult.blocked s' := by
  unfold process_event at h
  cases hu : updatePhase uni s e with
  | go s1 =>
    rw [hu] at h
    exact absurd h (promotionPhase_ne_blocked svc s1 s')
  | blocked s1 =>
    rw [hu] at h
    have h2 : PResult.blocked s1 = PResult.blocked s' := h
    cases h2
    rfl

/-- The promotion block never draws a uniform variate, never touches the
blocked counter, and never raises the blocked exception. -/
theorem promotionPhase_preserves (svc : ℕ → ℚ) (s1 : MQS) :
    (resState (promotionPhase svc s1)).uniformIdx = s1.uniformIdx ∧
    (resState (promotionPhase svc s1)).blocked_number = s1.blocked_number ∧
    isBlocked (promotionPhase svc s1) = false := by
  unfold promotionPhase
  split
  · split
    · exact ⟨rfl, rfl, rfl⟩
    · split
      · split
        · split
          · exact ⟨rfl, rfl, rfl⟩
          · exact ⟨rfl, rfl, rfl⟩
        · exact ⟨rfl, rfl, rfl⟩
      · exact ⟨rfl, rfl, rfl⟩
  · exact ⟨rfl, rfl, rfl⟩

/-- C10: when an arrival is blocked, the waiting queue, the busy-server
count, the service-draw cursor and both service-time accumulators are
unchanged, no promotion happens and no departure event is produced, while
`current_time`, the time-weighted area and the blocked counter were
updated before the exception was raised. -/
theorem c10_blocked_frame (uni svc : ℕ → ℚ) (s : MQS) (e : Event) (s' : MQS)
    (h : process_event uni svc s e = PResult.blocked s') :
    s'.queue = s.queue ∧ s'.used_server = s.used_server ∧
    s'.serviceIdx = s.serviceIdx ∧ s'.total_operation_time = s.total_operation_time ∧
    s'.total_time = s.total_time ∧ s'.current_time = e.time ∧
    s'.number_time_product_sum =
      s.number_time_product_sum + (customer_number s : ℚ) * (e.time - s.current_time) ∧
    s'.blocked_number = s.blocked_number + 1 ∧
    (∀ s2 out, process_event uni svc s e ≠ PResult.ok s2 out) := by
  have hu := process_event_blocked_inv uni svc s e s' h
  obtain ⟨_, hq, hus, hsvc, htop, htt, hct, hbn, hntps, _, _⟩ :=
    updatePhase_blocked_spec uni s e s' hu
  refine ⟨hq, hus, hsvc, htop, htt, hct, hntps, hbn, ?_⟩
  intro s2 out hok
  rw [h] at hok
  cases hok

theorem c10_witness :
    ∃ s', process_event (fun _ => 3 / 4) (fun _ => 1)
        (MQS.mk 2 2 1 0 [Event.mk EType.a 0 1, Event.mk EType.a 0 2,
          Event.mk EType.a 0 3, Event.mk EType.a 0 4] 0 0 0 0 0 0 0 0)
        (Event.mk EType.a 1 5) = PResult.blocked s' ∧
      s'.queue = [Event.mk EType.a 0 1, Event.mk EType.a 0 2,
        Event.mk EType.a 0 3, Event.mk EType.a 0 4] ∧
      s'.used_server = 0 ∧ s'.blocked_number = 1 := by
  have hupd := updatePhase_a_high (fun _ => 3 / 4)
    (MQS.mk 2 2 1 0 [Event.mk EType.a 0 1, Event.mk EType.a 0 2,
      Event.mk EType.a 0 3, Event.mk EType.a 0 4] 0 0 0 0 0 0 0 0)
    (Event.mk EType.a 1 5) rfl (by decide) (by decide)
  have h : process_event (fun _ => 3 / 4) (fun _ => 1)
      (MQS.mk 2 2 1 0 [Event.mk EType.a 0 1, Event.mk EType.a 0 2,
        Event.mk EType.a 0 3, Event.mk EType.a 0 4] 0 0 0 0 0 0 0 0)
      (Event.mk EType.a 1 5) = PResult.blocked
        { timeUpdate (MQS.mk 2 2 1 0 [Event.mk EType.a 0 1, Event.mk EType.a 0 2,
            Event.mk EType.a 0 3, Event.mk EType.a 0 4] 0 0 0 0 0 0 0 0)
            (Event.mk EType.a 1 5) with blocked_number := 0 + 1 } := by
    unfold process_event
    rw [hupd]
  have hc := c10_blocked_frame (fun _ => 3 / 4) (fun _ => 1) _ _ _ h
  exact ⟨_, h, hc.1, hc.2.1, hc.2.2.2.2.2.2.2.1⟩

/-- C2: admission policy for arrivals, split by the customer count
before admission: below `K` always admitted with no uniform draw; in
`[K, 2K)` exactly one uniform draw, admitted iff it is `≥ 0.5`; at or
above `2K` always blocked with no uniform draw; every blocked arrival
increments the blocked counter by exactly one.  (`2 ≤ K` holds for every
constructed system.) -/
theorem c2_admission_policy (uni svc : ℕ → ℚ) (s : MQS) (e : Event)
    (ht : e.t = EType.a) (hK : 2 ≤ s.K) :
    (customer_number s < s.K →
      (∃ s1, updatePhase uni s e = UpdResult.go s1 ∧ s1.queue = s.queue ++ [e]) ∧
      isBlocked (process_event uni svc s e) = false ∧
      (resState (process_event uni svc s e)).uniformIdx = s.uniformIdx ∧
      (resState (process_event uni svc s e)).blocked_number = s.blocked_number) ∧
    (s.K ≤ customer_number s → customer_number s < 2 * s.K →
      (resState (process_event uni svc s e)).uniformIdx = s.uniformIdx + 1 ∧
      (isBlocked (process_event uni svc s e) = false ↔ 1 / 2 ≤ uni s.uniformIdx) ∧
      (1 / 2 ≤ uni s.uniformIdx →
        ∃ s1, updatePhase uni s e = UpdResult.go s1 ∧ s1.queue = s.queue ++ [e]) ∧
      (¬ 1 / 2 ≤ uni s.uniformIdx →
        (resState (process_event uni svc s e)).blocked_number = s.blocked_number + 1)) ∧
    (2 * s.K ≤ customer_number s →
      isBlocked (process_event uni svc s e) = true ∧
      (resState (process_event uni svc s e)).uniformIdx = s.uniformIdx ∧
      (resState (process_event uni svc s e)).blocked_number = s.blocked_number + 1) ∧
    (isBlocked (process_event uni svc s e) = true →
      (resState (process_event uni svc s e)).blocked_number = s.blocked_number + 1) := by
  refine ⟨?_, ?_, ?_, ?_⟩
  · intro hn
    obtain ⟨s1, hupd, _, _, hq1, _, hui1, _, hbn1, _, _, _⟩ :=
      updatePhase_a_low_fields uni s e ht hn
    have hpe : process_event uni svc s e = promotionPhase svc s1 := by
      unfold process_event
      rw [hupd]
    obtain ⟨hu2, hb2, hnb2⟩ := promotionPhase_preserves svc s1
    rw [hpe]
    exact ⟨⟨s1, hupd, hq1⟩, hnb2, hu2.trans hui1, hb2.trans hbn1⟩
  · intro hn1 hn2
    by_cases hdraw : uni s.uniformIdx ≥ 1 / 2
    · obtain ⟨s1, hupd, _, _, hq1, _, hui1, _, hbn1, _, _, _⟩ :=
        updatePhase_a_mid_admit_fields uni s e ht (by omega) hn2 hdraw
      have hpe : process_event uni svc s e = promotionPhase svc s1 := by
        unfold process_event
        rw [hupd]
      obtain ⟨hu2, hb2, hnb2⟩ := promotionPhase_preserves svc s1
      rw [hpe]
      refine ⟨hu2.trans hui1, ?_, fun _ => ⟨s1, hupd, hq1⟩, fun hc => absurd hdraw hc⟩
      simp only [hnb2, true_iff]
      exact hdraw
    · obtain ⟨s1, hupd, _, _, hq1, _, hui1, hbn1⟩ :=
        updatePhase_a_mid_reject_fields uni s e ht (by omega) hn2 hdraw
      have hpe : process_event uni svc s e = PResult.blocked s1 := by
        unfold process_event
        rw [hupd]
      rw [hpe]
      refine ⟨hui1, ?_, fun hc => absurd hc hdraw, fun _ => hbn1⟩
      simp only [isBlocked]
      constructor
      · intro hfalse
        cases hfalse
      · intro hc
        exact absurd hc hdraw
  · intro hn
    obtain ⟨s1, hupd, _, _, hq1, _, hui1, hbn1⟩ :=
      updatePhase_a_high_fields uni s e ht (by omega) (by omega)
    have hpe : process_event uni svc s e = PResult.blocked s1 := by
      unfold process_event
      rw [hupd]
    rw [hpe]
    exact ⟨rfl, hui1, hbn1⟩
  · intro hb
    cases hr : process_event uni svc s e with
    | ok s2 out => rw [hr] at hb; cases hb
    | err k s2 => rw [hr] at hb; cases hb
    | blocked s2 =>
      have hu := process_event_blocked_inv uni svc s e s2 hr
      obtain ⟨_, _, _, _, _, _, _, hbn, _, _, _⟩ := updatePhase_blocked_spec uni s e s2 hu
      exact hbn

theorem c2_witness :
    (∃ s1, updatePhase (fun _ => 3 / 4) (MQS.mk 2 2 1 0 [] 0 0 0 0 0 0 0 0)
        (Event.mk EType.a 1 1) = UpdResult.go s1 ∧
        s1.queue = (MQS.mk 2 2 1 0 [] 0 0 0 0 0 0 0 0).queue ++ [Event.mk EType.a 1 1]) ∧
      isBlocked (process_event (fun _ => 3 / 4) (fun _ => 1)
        (MQS.mk 2 2 1 0 [] 0 0 0 0 0 0 0 0) (Event.mk EType.a 1 1)) = false ∧
      (resState (process_event (fun _ => 3 / 4) (fun _ => 1)
        (MQS.mk 2 2 1 0 [] 0 0 0 0 0 0 0 0) (Event.mk EType.a 1 1))).uniformIdx =
        (MQS.mk 2 2 1 0 [] 0 0 0 0 0 0 0 0).uniformIdx ∧
      (resState (process_event (fun _ => 3 / 4) (fun _ => 1)
        (MQS.mk 2 2 1 0 [] 0 0 0 0 0 0 0 0) (Event.mk EType.a 1 1))).blocked_number =
        (MQS.mk 2 2 1 0 [] 0 0 0 0 0 0 0 0).blocked_number :=
  (c2_admission_policy (fun _ => 3 / 4) (fun _ => 1) (MQS.mk 2 2 1 0 [] 0 0 0 0 0 0 0 0)
    (Event.mk EType.a 1 1) rfl (by decide)).1 (by decide)

/-- Inversion of a normal `process_event` return into the two phases. -/
theorem process_event_ok_inv (uni svc : ℕ → ℚ) (s : MQS) (e : Event) (s' : MQS)
    (out : Option Event) (h : process_event uni svc s e = PResult.ok s' out) :
    ∃ s1, updatePhase uni s e = UpdResult.go s1 ∧
      promotionPhase svc s1 = PResult.ok s' out := by
  unfold process_event at h
  cases hu : updatePhase uni s e with
  | go s1 =>
    rw [hu] at h
    exact ⟨s1, rfl, h⟩
  | blocked s1 =>
    rw [hu] at h
    have h2 : PResult.blocked s1 = PResult.ok s' out := h
    cases h2

/-- Inversion of a normal promotion-block return: either nothing happened
(no promotion, state untouched, no event), or exactly the queue head was
promoted. -/
theorem promotionPhase_ok_inv (svc : ℕ → ℚ) (s1 s' : MQS) (out : Option Event)
    (h : promotionPhase svc s1 = PResult.ok s' out) :
    (out = none ∧ s' = s1) ∨
    (∃ ae rest, s1.queue = ae :: rest ∧
      out = some (Event.mk EType.d (s1.current_time + svc s1.serviceIdx) ae.customer) ∧
      s' = { s1 with
              queue := rest
              serviceIdx := s1.serviceIdx + 1
              total_operation_time := s1.total_operation_time + svc s1.serviceIdx
              total_time := s1.current_time - ae.time + svc s1.serviceIdx
              used_server := s1.used_server + 1 }) := by
  unfold promotionPhase at h
  split at h
  · cases husable : usable_server s1 with
    | none =>
      rw [husable] at h
      have h2 : PResult.err ErrKind.typeErr s1 = PResult.ok s' out := h
      cases h2
    | some us =>
      rw [husable] at h
      have h2 :
          (if 0 ≤ us - s1.used_server ∧ us - s1.used_server ≤ us then
            if us - s1.used_server > 0 then
              match s1.queue with
              | [] => PResult.err ErrKind.popErr s1
              | ae :: rest =>
                PResult.ok
                  { s1 with
                    queue := rest
                    serviceIdx := s1.serviceIdx + 1
                    total_operation_time := s1.total_operation_time + svc s1.serviceIdx
                    total_time := s1.current_time - ae.time + svc s1.serviceIdx
                    used_server := s1.used_server + 1 }
                  (some { t := EType.d, time := s1.current_time + svc s1.serviceIdx,
                          customer := ae.customer })
            else PResult.ok s1 none
          else PResult.err ErrKind.assertErr s1) = PResult.ok s' out := h
      split at h2
      · split at h2
        · cases hq : s1.queue with
          | nil =>
            rw [hq] at h2
            have h3 : PResult.err ErrKind.popErr s1 = PResult.ok s' out := h2
            cases h3
          | cons ae rest =>
            rw [hq] at h2
            have h3 : PResult.ok
                { s1 with
                  queue := rest
                  serviceIdx := s1.serviceIdx + 1
                  total_operation_time := s1.total_operation_time + svc s1.serviceIdx
                  total_time := s1.current_time - ae.time + svc s1.serviceIdx
                  used_server := s1.used_server + 1 }
                (some { t := EType.d, time := s1.current_time + svc s1.serviceIdx,
                        customer := ae.customer }) = PResult.ok s' out := h2
            cases h3
            exact Or.inr ⟨ae, rest, rfl, rfl, rfl⟩
        · cases h2
          exact Or.inl ⟨rfl, rfl⟩
      · have h3 : PResult.err ErrKind.assertErr s1 = PResult.ok s' out := h2
        cases h3
  · cases h
    exact Or.inl ⟨rfl, rfl⟩

/-- C3: every normal `process_event` call promotes at most one waiting
customer and returns at most one departure event: either no promotion
happened (nothing returned, promotion block left the state untouched),
or exactly the earliest-waiting arrival (the queue head) was dequeued,
exactly one exponential draw was taken and accumulated, the busy-server
count rose by one, and the returned departure event carries the dequeued
customer's id at time `current_time + serviceDuration`. -/
theorem c3_single_promotion (uni svc : ℕ → ℚ) (s : MQS) (e : Event) (s' : MQS)
    (out : Option Event) (h : process_event uni svc s e = PResult.ok s' out) :
    ∃ s1, updatePhase uni s e = UpdResult.go s1 ∧
      s1.serviceIdx = s.serviceIdx ∧ s1.current_time = e.time ∧
      ((out = none ∧ s' = s1) ∨
       (∃ ae rest, s1.queue = ae :: rest ∧
          out = some (Event.mk EType.d (s1.current_time + svc s1.serviceIdx) ae.customer) ∧
          s'.queue = rest ∧ s'.used_server = s1.used_server + 1 ∧
          s'.serviceIdx = s1.serviceIdx + 1 ∧
          s'.total_operation_time = s1.total_operation_time + svc s1.serviceIdx)) := by
  obtain ⟨s1, hupd, hprom⟩ := process_event_ok_inv uni svc s e s' out h
  obtain ⟨hsvcIdx, htop, htt, hbn, hct, hKf, hmf⟩ := updatePhase_go_frame uni s e s1 hupd
  rcases promotionPhase_ok_inv svc s1 s' out hprom with ⟨ho, hs⟩ | ⟨ae, rest, hq, ho, hs⟩
  · exact ⟨s1, hupd, hsvcIdx, hct, Or.inl ⟨ho, hs⟩⟩
  · refine ⟨s1, hupd, hsvcIdx, hct, Or.inr ⟨ae, rest, hq, ho, ?_, ?_, ?_, ?_⟩⟩ <;> rw [hs]

theorem c3_witness :
    ∃ s' out s1,
      process_event (fun _ => 3 / 4) (fun _ => 1) (MQS.mk 2 2 1 0 [] 0 0 0 0 0 0 0 0)
          (Event.mk EType.a 1 1) = PResult.ok s' out ∧
      updatePhase (fun _ => 3 / 4) (MQS.mk 2 2 1 0 [] 0 0 0 0 0 0 0 0)
          (Event.mk EType.a 1 1) = UpdResult.go s1 ∧
      s1.serviceIdx = (MQS.mk 2 2 1 0 [] 0 0 0 0 0 0 0 0).serviceIdx ∧
      s1.current_time = (Event.mk EType.a 1 1).time ∧
      ((out = none ∧ s' = s1) ∨
       (∃ ae rest, s1.queue = ae :: rest ∧
          out = some (Event.mk EType.d (s1.current_time + 1) ae.customer) ∧
          s'.queue = rest ∧ s'.used_server = s1.used_server + 1 ∧
          s'.serviceIdx = s1.serviceIdx + 1 ∧
          s'.total_operation_time = s1.total_operation_time + 1)) := by
  cases hpe : process_event (fun _ => 3 / 4) (fun _ => 1) (MQS.mk 2 2 1 0 [] 0 0 0 0 0 0 0 0)
      (Event.mk EType.a 1 1) with
  | ok s' out =>
    obtain ⟨s1, h1, h2, h3, h4⟩ :=
      c3_single_promotion (fun _ => 3 / 4) (fun _ => 1) (MQS.mk 2 2 1 0 [] 0 0 0 0 0 0 0 0)
        (Event.mk EType.a 1 1) s' out hpe
    exact ⟨s', out, s1, rfl, h1, h2, h3, h4⟩
  | blocked s2 =>
    have h2 := process_event_blocked_inv (fun _ => 3 / 4) (fun _ => 1)
      (MQS.mk 2 2 1 0 [] 0 0 0 0 0 0 0 0) (Event.mk EType.a 1 1) s2 hpe
    rw [updatePhase_a_low (fun _ => 3 / 4) (MQS.mk 2 2 1 0 [] 0 0 0 0 0 0 0 0)
      (Event.mk EType.a 1 1) rfl (by decide)] at h2
    cases h2
  | err k s2 =>
    exact absurd hpe (process_event_no_error (fun _ => 3 / 4) (fun _ => 1) 2 1
      (MQS.mk 2 2 1 0 [] 0 0 0 0 0 0 0 0) 0 (Event.mk EType.a 1 1)
      (Reach.init _ rfl) (Or.inl rfl) k s2)

/-- C5: on every promotion, `total_time` (the spec's `lastSojournTime`)
is overwritten — not summed — with
`current_time - dequeuedArrival.time + serviceDuration` (independent of
its previous value, which is arbitrary here), and the reported "average
sojourn time" summary is this single value divided by the target
departure count. -/
theorem c5_last_sojourn_overwrite (uni svc : ℕ → ℚ) (s : MQS) (e : Event) (s' : MQS)
    (d : Event) (N : ℚ) (h : process_event uni svc s e = PResult.ok s' (some d)) :
    ∃ s1 ae rest, updatePhase uni s e = UpdResult.go s1 ∧ s1.queue = ae :: rest ∧
      s1.total_time = s.total_time ∧ s1.current_time = e.time ∧
      s'.total_time = e.time - ae.time + svc s1.serviceIdx ∧
      averageTimeSummary s' N = (e.time - ae.time + svc s1.serviceIdx) / N := by
  obtain ⟨s1, hupd, hprom⟩ := process_event_ok_inv uni svc s e s' (some d) h
  obtain ⟨hsvcIdx, htop, htt, hbn, hct, hKf, hmf⟩ := updatePhase_go_frame uni s e s1 hupd
  rcases promotionPhase_ok_inv svc s1 s' (some d) hprom with ⟨ho, _⟩ | ⟨ae, rest, hq, ho, hs⟩
  · cases ho
  · refine ⟨s1, ae, rest, hupd, hq, htt, hct, ?_, ?_⟩
    · rw [hs]
      show s1.current_time - ae.time + svc s1.serviceIdx = _
      rw [hct]
    · unfold averageTimeSummary
      rw [hs]
      show (s1.current_time - ae.time + svc s1.serviceIdx) / N = _
      rw [hct]

theorem c5_witness :
    ∃ s' d s1 ae rest,
      process_event (fun _ => 3 / 4) (fun _ => 1) (MQS.mk 2 2 1 0 [] 0 0 0 0 0 0 0 0)
          (Event.mk EType.a 1 1) = PResult.ok s' (some d) ∧
      updatePhase (fun _ => 3 / 4) (MQS.mk 2 2 1 0 [] 0 0 0 0 0 0 0 0)
          (Event.mk EType.a 1 1) = UpdResult.go s1 ∧
      s1.queue = ae :: rest ∧
      s1.total_time = (MQS.mk 2 2 1 0 [] 0 0 0 0 0 0 0 0).total_time ∧
      s1.current_time = (Event.mk EType.a 1 1).time ∧
      s'.total_time = (Event.mk EType.a 1 1).time - ae.time + 1 ∧
      averageTimeSummary s' 100000 =
        ((Event.mk EType.a 1 1).time - ae.time + 1) / 100000 := by
  cases hpe : process_event (fun _ => 3 / 4) (fun _ => 1) (MQS.mk 2 2 1 0 [] 0 0 0 0 0 0 0 0)
      (Event.mk EType.a 1 1) with
  | ok s' out =>
    cases out with
    | some d =>
      obtain ⟨s1, ae, rest, h1, h2, h3, h4, h5, h6⟩ :=
        c5_last_sojourn_overwrite (fun _ => 3 / 4) (fun _ => 1)
          (MQS.mk 2 2 1 0 [] 0 0 0 0 0 0 0 0) (Event.mk EType.a 1 1) s' d 100000 hpe
      exact ⟨s', d, s1, ae, rest, rfl, h1, h2, h3, h4, h5, h6⟩
    | none =>
      exfalso
      obtain ⟨s1, hupd, hprom⟩ := process_event_ok_inv (fun _ => 3 / 4) (fun _ => 1)
        (MQS.mk 2 2 1 0 [] 0 0 0 0 0 0 0 0) (Event.mk EType.a 1 1) s' none hpe
      rw [updatePhase_a_low (fun _ => 3 / 4) (MQS.mk 2 2 1 0 [] 0 0 0 0 0 0 0 0)
        (Event.mk EType.a 1 1) rfl (by decide)] at hupd
      cases hupd
      have hsome : ∃ s2 d2,
          promotionPhase (fun _ => (1 : ℚ))
            { timeUpdate (MQS.mk 2 2 1 0 [] 0 0 0 0 0 0 0 0) (Event.mk EType.a 1 1) with
              queue := (MQS.mk 2 2 1 0 [] 0 0 0 0 0 0 0 0).queue ++ [Event.mk EType.a 1 1] } =
            PResult.ok s2 (some d2) := by
        rw [promotionPhase_some (fun _ => (1 : ℚ)) _ 1 (by decide) (by decide),
          if_pos (by decide), if_pos (by decide)]
        exact ⟨_, _, rfl⟩
      obtain ⟨s2, d2, hsome2⟩ := hsome
      rw [hsome2] at hprom
      cases hprom
  | blocked s2 =>
    have h2 := process_event_blocked_inv (fun _ => 3 / 4) (fun _ => 1)
      (MQS.mk 2 2 1 0 [] 0 0 0 0 0 0 0 0) (Event.mk EType.a 1 1) s2 hpe
    rw [updatePhase_a_low (fun _ => 3 / 4) (MQS.mk 2 2 1 0 [] 0 0 0 0 0 0 0 0)
      (Event.mk EType.a 1 1) rfl (by decide)] at h2
    cases h2
  | err k s2 =>
    exact absurd hpe (process_event_no_error (fun _ => 3 / 4) (fun _ => 1) 2 1
      (MQS.mk 2 2 1 0 [] 0 0 0 0 0 0 0 0) 0 (Event.mk EType.a 1 1)
      (Reach.init _ rfl) (Or.inl rfl) k s2)

/-! ### Construction validation (C4) -/

/-- Counterexample to the claim that construction fails whenever
`μ ≤ 0` or `λ ≤ 0`: with `K = 4` and `μ = 0 ≤ 0` the queueing system is
constructed successfully, and the simulator is constructed successfully
with `λ = 0 ≤ 0`; no rate validation exists in the source. -/
theorem c4_counterexample :
    ((0 : ℚ) ≤ 0) ∧ (mqsInit 4 0).isOk = true ∧
      (simulatorInit (MQS.mk 2 4 0 0 [] 0 0 0 0 0 0 0 0) 0 100000).isOk = true :=
  ⟨le_refl 0, rfl, rfl⟩

/-- C4 (amended): `MarkovianQueueingSystem` construction fails (with
`ValueError`) exactly when `K < 2` — so `K = 1` fails and `K = 2` is the
minimum accepted capacity — while `μ` and `λ` are not validated at
construction: `Simulator` construction always succeeds. -/
theorem c4_construction_validation (K : ℤ) (mu lambda_ : ℚ) (times : ℕ) (mqs : MQS) :
    ((mqsInit K mu).isOk = true ↔ 2 ≤ K) ∧
    (mqsInit 1 mu).isOk = false ∧ (mqsInit 2 mu).isOk = true ∧
    (simulatorInit mqs lambda_ times).isOk = true := by
  refine ⟨?_, rfl, rfl, rfl⟩
  unfold mqsInit
  by_cases h : K < 2
  · rw [if_pos h]
    constructor
    · intro hh
      exact absurd hh (by decide)
    · intro hh
      omega
  · rw [if_neg h]
    exact ⟨fun _ => by omega, fun _ => rfl⟩

/-! ### Round trip (C7) -/

/-- An arrival that passed the arrival branch was appended to the
waiting queue; nothing else of the queue/server state changed. -/
theorem updatePhase_go_a_spec (uni : ℕ → ℚ) (s : MQS) (e : Event) (s1 : MQS)
    (ht : e.t = EType.a) (h : updatePhase uni s e = UpdResult.go s1) :
    s1.queue = s.queue ++ [e] ∧ s1.used_server = s.used_server ∧
    s1.K = s.K ∧ s1.m = s.m := by
  simp only [updatePhase, ht] at h
  split at h
  · cases h
    exact ⟨rfl, rfl, rfl, rfl⟩
  · split at h
    · split at h
      · cases h
        exact ⟨rfl, rfl, rfl, rfl⟩
      · cases h
    · cases h

/-- Inversion of `usable_server s = some us`. -/
theorem usable_server_inv (s : MQS) (us : ℤ) (h : usable_server s = some us) :
    (customer_number s < s.K ∧ us = 1) ∨
    (¬ customer_number s < s.K ∧ customer_number s ≤ 2 * s.K ∧ us = s.m) := by
  unfold usable_server at h
  split at h
  · cases h
    exact Or.inl ⟨by assumption, rfl⟩
  · split at h
    · cases h
      exact Or.inr ⟨by assumption, by assumption, rfl⟩
    · cases h

/-- Inversion of a promotion (a normal return carrying a departure
event), exposing the guard facts that were necessarily true. -/
theorem promotionPhase_promoted_inv (svc : ℕ → ℚ) (s1 s' : MQS) (d : Event)
    (h : promotionPhase svc s1 = PResult.ok s' (some d)) :
    ∃ us ae rest, usable_server s1 = some us ∧
      0 ≤ us - s1.used_server ∧ us - s1.used_server ≤ us ∧ 0 < us - s1.used_server ∧
      0 < customer_number s1 ∧ s1.queue = ae :: rest ∧
      d = Event.mk EType.d (s1.current_time + svc s1.serviceIdx) ae.customer ∧
      s' = { s1 with
              queue := rest
              serviceIdx := s1.serviceIdx + 1
              total_operation_time := s1.total_operation_time + svc s1.serviceIdx
              total_time := s1.current_time - ae.time + svc s1.serviceIdx
              used_server := s1.used_server + 1 } := by
  unfold promotionPhase at h
  split at h
  · rename_i hpos
    cases husable : usable_server s1 with
    | none =>
      rw [husable] at h
      have h2 : PResult.err ErrKind.typeErr s1 = PResult.ok s' (some d) := h
      cases h2
    | some us =>
      rw [husable] at h
      have h2 :
          (if 0 ≤ us - s1.used_server ∧ us - s1.used_server ≤ us then
            if us - s1.used_server > 0 then
              match s1.queue with
              | [] => PResult.err ErrKind.popErr s1
              | ae :: rest =>
                PResult.ok
                  { s1 with
                    queue := rest
                    serviceIdx := s1.serviceIdx + 1
                    total_operation_time := s1.total_operation_time + svc s1.serviceIdx
                    total_time := s1.current_time - ae.time + svc s1.serviceIdx
                    used_server := s1.used_server + 1 }
                  (some { t := EType.d, time := s1.current_time + svc s1.serviceIdx,
                          customer := ae.customer })
            else PResult.ok s1 none
          else PResult.err ErrKind.assertErr s1) = PResult.ok s' (some d) := h
      split at h2
      · rename_i hassert
        split at h2
        · rename_i hidle
          cases hq : s1.queue with
          | nil =>
            rw [hq] at h2
            have h3 : PResult.err ErrKind.popErr s1 = PResult.ok s' (some d) := h2
            cases h3
          | cons ae rest =>
            rw [hq] at h2
            have h3 : PResult.ok
                { s1 with
                  queue := rest
                  serviceIdx := s1.serviceIdx + 1
                  total_operation_time := s1.total_operation_time + svc s1.serviceIdx
                  total_time := s1.current_time - ae.time + svc s1.serviceIdx
                  used_server := s1.used_server + 1 }
                (some { t := EType.d, time := s1.current_time + svc s1.serviceIdx,
                        customer := ae.customer }) = PResult.ok s' (some d) := h2
            cases h3
            exact ⟨us, ae, rest, rfl, hassert.1, hassert.2, hidle, hpos, rfl, rfl, rfl⟩
        · have h3 : PResult.ok s1 none = PResult.ok s' (some d) := h2
          cases h3
      · have h3 : PResult.err ErrKind.assertErr s1 = PResult.ok s' (some d) := h2
        cases h3
  · have h2 : PResult.ok s1 none = PResult.ok s' (some d) := h
    cases h2

/-- C7: feeding an Arrival through `process_event` and then feeding the
departure event generated by that call straight back (no other events
interleaved) returns normally and leaves `customer_number` exactly as it
was before the Arrival.  (`2 ≤ K` and `m = 2` hold for every constructed
system.) -/
theorem c7_roundtrip (uni svc : ℕ → ℚ) (s : MQS) (e : Event) (s1 : MQS) (d : Event)
    (ht : e.t = EType.a) (hK : 2 ≤ s.K) (hm : s.m = 2)
    (h1 : process_event uni svc s e = PResult.ok s1 (some d)) :
    ∃ s2 out2, process_event uni svc s1 d = PResult.ok s2 out2 ∧
      customer_number s2 = customer_number s := by
  obtain ⟨sMid, hupd, hprom⟩ := process_event_ok_inv uni svc s e s1 (some d) h1
  obtain ⟨hqMid, husMid, hKMid, hmMid⟩ := updatePhase_go_a_spec uni s e sMid ht hupd
  obtain ⟨us, ae, rest, husable, ha1, ha2, hidle, hpos, hqe, hd, hs1⟩ :=
    promotionPhase_promoted_inv svc sMid s1 d hprom
  have hcnMid : customer_number sMid = customer_number s + 1 :=
    customer_number_append sMid s e hqMid husMid
  have husable_facts := usable_server_inv sMid us husable
  have husbound : us ≤ 2 := by
    rcases husable_facts with ⟨_, h⟩ | ⟨_, _, h⟩
    · omega
    · rw [h, hmMid, hm]
  have hn2KMid : customer_number sMid ≤ 2 * sMid.K := by
    rcases husable_facts with ⟨hlt, _⟩ | ⟨_, hle, _⟩
    · have hK0 : (0 : ℤ) ≤ sMid.K := by rw [hKMid]; omega
      omega
    · exact hle
  have hs1q : s1.queue = rest := by rw [hs1]
  have hs1u : s1.used_server = sMid.used_server + 1 := by rw [hs1]
  have hs1K : s1.K = sMid.K := by rw [hs1]
  have hs1m : s1.m = sMid.m := by rw [hs1]
  have hdt : d.t = EType.d := by rw [hd]
  obtain ⟨sMid2, hupd2, hK2, hm2, hq2, hu2, _, _, _, _, _, _⟩ :=
    updatePhase_d_fields uni s1 d hdt
  have hcn2 : customer_number sMid2 = customer_number sMid - 1 := by
    have ha' : customer_number sMid2 = customer_number s1 - 1 :=
      customer_number_dec sMid2 s1 hq2 hu2
    have hb' : customer_number s1 = customer_number sMid := by
      unfold customer_number
      rw [hs1q, hs1u, hqe]
      push_cast [List.length_cons]
      ring
    omega
  obtain hsound := promotionPhase_sound svc sMid2
    (by rw [hK2, hs1K, hKMid]; exact hK)
    (by rw [hm2, hs1m, hmMid]; exact hm)
    (by rw [hu2, hs1u]; omega)
    (by rw [hK2, hs1K]; omega)
    (by
      rw [hu2, hs1u, hK2, hs1K]
      split <;> omega)
  rcases hsound with hok | ⟨ae2, rest2, hq2e, hlt2, hok⟩
  · refine ⟨sMid2, none, ?_, ?_⟩
    · unfold process_event
      rw [hupd2]
      exact hok
    · omega
  · refine ⟨{ sMid2 with
        queue := rest2
        serviceIdx := sMid2.serviceIdx + 1
        total_operation_time := sMid2.total_operation_time + svc sMid2.serviceIdx
        total_time := sMid2.current_time - ae2.time + svc sMid2.serviceIdx
        used_server := sMid2.used_server + 1 },
      some (Event.mk EType.d (sMid2.current_time + svc sMid2.serviceIdx) ae2.customer),
      ?_, ?_⟩
    · unfold process_event
      rw [hupd2]
      exact hok
    · have hrec : customer_number
          { sMid2 with
            queue := rest2
            serviceIdx := sMid2.serviceIdx + 1
            total_operation_time := sMid2.total_operation_time + svc sMid2.serviceIdx
            total_time := sMid2.current_time - ae2.time + svc sMid2.serviceIdx
            used_server := sMid2.used_server + 1 } = customer_number sMid2 := by
        simp [customer_number, hq2e]
        omega
      omega

theorem c7_witness :
    ∃ s1 d s2 out2,
      process_event (fun _ => 3 / 4) (fun _ => 1) (MQS.mk 2 2 1 0 [] 0 0 0 0 0 0 0 0)
          (Event.mk EType.a 1 1) = PResult.ok s1 (some d) ∧
      process_event (fun _ => 3 / 4) (fun _ => 1) s1 d = PResult.ok s2 out2 ∧
      customer_number s2 = customer_number (MQS.mk 2 2 1 0 [] 0 0 0 0 0 0 0 0) := by
  cases hpe : process_event (fun _ => 3 / 4) (fun _ => 1) (MQS.mk 2 2 1 0 [] 0 0 0 0 0 0 0 0)
      (Event.mk EType.a 1 1) with
  | ok s1 out =>
    cases out with
    | some d =>
      obtain ⟨s2, out2, hp2, hcn⟩ :=
        c7_roundtrip (fun _ => 3 / 4) (fun _ => 1) (MQS.mk 2 2 1 0 [] 0 0 0 0 0 0 0 0)
          (Event.mk EType.a 1 1) s1 d rfl (by decide) (by decide) hpe
      exact ⟨s1, d, s2, out2, rfl, hp2, hcn⟩
    | none =>
      exfalso
      obtain ⟨sM, hupd, hprom⟩ := process_event_ok_inv (fun _ => 3 / 4) (fun _ => 1)
        (MQS.mk 2 2 1 0 [] 0 0 0 0 0 0 0 0) (Event.mk EType.a 1 1) s1 none hpe
      rw [updatePhase_a_low (fun _ => 3 / 4) (MQS.mk 2 2 1 0 [] 0 0 0 0 0 0 0 0)
        (Event.mk EType.a 1 1) rfl (by decide)] at hupd
      cases hupd
      have hsome : ∃ s3 d3,
          promotionPhase (fun _ => (1 : ℚ))
            { timeUpdate (MQS.mk 2 2 1 0 [] 0 0 0 0 0 0 0 0) (Event.mk EType.a 1 1) with
              queue := (MQS.mk 2 2 1 0 [] 0 0 0 0 0 0 0 0).queue ++ [Event.mk EType.a 1 1] } =
            PResult.ok s3 (some d3) := by
        rw [promotionPhase_some (fun _ => (1 : ℚ)) _ 1 (by decide) (by decide),
          if_pos (by decide), if_pos (by decide)]
        exact ⟨_, _, rfl⟩
      obtain ⟨s3, d3, hsome2⟩ := hsome
      rw [hsome2] at hprom
      cases hprom
  | blocked s2 =>
    have h2 := process_event_blocked_inv (fun _ => 3 / 4) (fun _ => 1)
      (MQS.mk 2 2 1 0 [] 0 0 0 0 0 0 0 0) (Event.mk EType.a 1 1) s2 hpe
    rw [updatePhase_a_low (fun _ => 3 / 4) (MQS.mk 2 2 1 0 [] 0 0 0 0 0 0 0 0)
      (Event.mk EType.a 1 1) rfl (by decide)] at h2
    cases h2
  | err k s2 =>
    exact absurd hpe (process_event_no_error (fun _ => 3 / 4) (fun _ => 1) 2 1
      (MQS.mk 2 2 1 0 [] 0 0 0 0 0 0 0 0) 0 (Event.mk EType.a 1 1)
      (Reach.init _ rfl) (Or.inl rfl) k s2)


/-! ### Event-list ordering (C6) -/

instance : DecidableRel (fun x y : Event => x.time ≤ y.time) :=
  fun a b => inferInstanceAs (Decidable (a.time ≤ b.time))

instance : IsTotal Event (fun x y : Event => x.time ≤ y.time) :=
  ⟨fun a b => le_total a.time b.time⟩

instance : IsTrans Event (fun x y : Event => x.time ≤ y.time) :=
  ⟨fun _ _ _ hab hbc => le_trans hab hbc⟩

theorem event_orderedInsert_le (a : Event) (l : List Event)
    (h : ∀ b ∈ l, a.time ≤ b.time) :
    List.orderedInsert (fun x y : Event => x.time ≤ y.time) a l = a :: l := by
  cases l with
  | nil => rfl
  | cons b t =>
    exact List.orderedInsert_of_le (fun x y : Event => x.time ≤ y.time) t
      (h b (List.mem_cons_self b t))

/-- Stability of `_append_event` on an already-sorted list: the appended
event lands exactly after every element whose time is `≤` its own, i.e.
after all earlier-inserted events of equal time. -/
theorem append_event_sorted_eq (l : List Event) (e : Event)
    (hs : List.Sorted (fun x y : Event => x.time ≤ y.time) l) :
    append_event l e =
      l.takeWhile (fun x => decide (x.time ≤ e.time)) ++
        e :: l.dropWhile (fun x => decide (x.time ≤ e.time)) := by
  induction l with
  | nil => rfl
  | cons a t ih =>
    have hs' : List.Sorted (fun x y : Event => x.time ≤ y.time) t := hs.of_cons
    have hat : ∀ b ∈ t, a.time ≤ b.time := List.rel_of_sorted_cons hs
    by_cases hae : a.time ≤ e.time
    · have hmem : ∀ b ∈ t ++ [e], a.time ≤ b.time := by
        intro b hb
        rcases List.mem_append.mp hb with hb | hb
        · exact hat b hb
        · rw [List.mem_singleton.mp hb]
          exact hae
      unfold append_event at ih ⊢
      rw [List.cons_append,
        List.insertionSort_cons (r := fun x y : Event => x.time ≤ y.time) hmem, ih hs',
        List.takeWhile_cons_of_pos (by simpa using hae),
        List.dropWhile_cons_of_pos (by simpa using hae)]
      rfl
    · have hbt : ∀ b ∈ t, ¬ b.time ≤ e.time := by
        intro b hb hc
        exact hae (le_trans (hat b hb) hc)
      have hT : t.takeWhile (fun x => decide (x.time ≤ e.time)) = [] := by
        cases t with
        | nil => rfl
        | cons c t2 =>
          rw [List.takeWhile_cons_of_neg]
          simpa using hbt c (List.mem_cons_self c t2)
      have hD : t.dropWhile (fun x => decide (x.time ≤ e.time)) = t := by
        cases t with
        | nil => rfl
        | cons c t2 =>
          rw [List.dropWhile_cons_of_neg]
          simpa using hbt c (List.mem_cons_self c t2)
      unfold append_event at ih ⊢
      rw [List.cons_append]
      show List.orderedInsert (fun x y : Event => x.time ≤ y.time) a
          (List.insertionSort (fun x y : Event => x.time ≤ y.time) (t ++ [e])) = _
      rw [ih hs', hT, hD,
        List.takeWhile_cons_of_neg (by simpa using hae),
        List.dropWhile_cons_of_neg (by simpa using hae)]
      show List.orderedInsert (fun x y : Event => x.time ≤ y.time) a (e :: t) = e :: a :: t
      simp only [List.orderedInsert]
      rw [if_neg hae, event_orderedInsert_le a t hat]

/-- Every element surviving `dropWhile (time ≤ e.time)` of a sorted list
has time strictly greater than `e.time`. -/
theorem dropWhile_time_gt (l : List Event) (e : Event)
    (hs : List.Sorted (fun x y : Event => x.time ≤ y.time) l) :
    ∀ x ∈ l.dropWhile (fun x => decide (x.time ≤ e.time)), ¬ x.time ≤ e.time := by
  induction l with
  | nil =>
    intro x hx
    cases hx
  | cons a t ih =>
    by_cases pa : a.time ≤ e.time
    · rw [List.dropWhile_cons_of_pos (by simpa using pa)]
      exact ih hs.of_cons
    · rw [List.dropWhile_cons_of_neg (by simpa using pa)]
      intro x hx
      rcases List.mem_cons.mp hx with rfl | hx
      · exact pa
      · intro hc
        exact pa (le_trans (List.rel_of_sorted_cons hs x hx) hc)

/-- Per-time-value filter through a stable insertion: events of time
`t0` keep their order, with the new event appended at the end of its
time class. -/
theorem append_event_filter (l : List Event) (e : Event) (t0 : ℚ)
    (hs : List.Sorted (fun x y : Event => x.time ≤ y.time) l) :
    (append_event l e).filter (fun x => decide (x.time = t0)) =
      l.filter (fun x => decide (x.time = t0)) ++ (if e.time = t0 then [e] else []) := by
  rw [append_event_sorted_eq l e hs, List.filter_append, List.filter_cons]
  by_cases he : e.time = t0
  · rw [if_pos (by simpa using he), if_pos he]
    have hD : (l.dropWhile (fun x => decide (x.time ≤ e.time))).filter
        (fun x => decide (x.time = t0)) = [] := by
      rw [List.filter_eq_nil_iff]
      intro x hx
      have hgt := dropWhile_time_gt l e hs x hx
      simp only [decide_eq_true_eq]
      intro hc
      exact hgt (le_of_eq (hc.trans he.symm))
    rw [hD]
    have hl : l.filter (fun x => decide (x.time = t0)) =
        (l.takeWhile (fun x => decide (x.time ≤ e.time))).filter
          (fun x => decide (x.time = t0)) := by
      conv_lhs =>
        rw [← List.takeWhile_append_dropWhile (fun x => decide (x.time ≤ e.time)) l]
      rw [List.filter_append, hD, List.append_nil]
    rw [hl]
  · rw [if_neg (by simpa using he), if_neg he, List.append_nil]
    conv_rhs =>
      rw [← List.takeWhile_append_dropWhile (fun x => decide (x.time ≤ e.time)) l]
    rw [List.filter_append]

theorem buildQueue_concat (es : List Event) (e : Event) :
    buildQueue (es ++ [e]) = append_event (buildQueue es) e := by
  unfold buildQueue
  rw [List.foldl_append]
  rfl

theorem buildQueue_sorted (es : List Event) :
    List.Sorted (fun x y : Event => x.time ≤ y.time) (buildQueue es) := by
  induction es using List.reverseRecOn with
  | nil => exact List.sorted_nil
  | append_singleton es e ih =>
    rw [buildQueue_concat]
    exact List.sorted_insertionSort (fun x y : Event => x.time ≤ y.time)
      (buildQueue es ++ [e])

theorem buildQueue_perm (es : List Event) : List.Perm (buildQueue es) es := by
  induction es using List.reverseRecOn with
  | nil => exact List.Perm.refl []
  | append_singleton es e ih =>
    rw [buildQueue_concat]
    exact (List.perm_insertionSort (fun x y : Event => x.time ≤ y.time)
      (buildQueue es ++ [e])).trans (ih.append_right [e])

theorem buildQueue_filter (es : List Event) (t0 : ℚ) :
    (buildQueue es).filter (fun x => decide (x.time = t0)) =
      es.filter (fun x => decide (x.time = t0)) := by
  induction es using List.reverseRecOn with
  | nil => rfl
  | append_singleton es e ih =>
    rw [buildQueue_concat, append_event_filter _ _ _ (buildQueue_sorted es), ih,
      List.filter_append, List.filter_cons]
    by_cases he : e.time = t0
    · rw [if_pos he, if_pos (by simpa using he)]
      rfl
    · rw [if_neg he, if_neg (by simpa using he)]
      rfl

theorem filter_eq_cons_split (p : Event → Bool) (l : List Event) (a : Event)
    (as : List Event) (h : l.filter p = a :: as) :
    ∃ pre post, l = pre ++ a :: post ∧ ∀ y ∈ pre, p y = false := by
  induction l with
  | nil => cases h
  | cons b t ih =>
    rw [List.filter_cons] at h
    by_cases pb : p b
    · rw [if_pos pb] at h
      cases h
      exact ⟨[], t, rfl, by intro y hy; cases hy⟩
    · rw [if_neg pb] at h
      obtain ⟨pre, post, hsplit, hpre⟩ := ih h
      refine ⟨b :: pre, post, by rw [List.cons_append, hsplit], ?_⟩
      intro y hy
      rcases List.mem_cons.mp hy with rfl | hy
      · exact Bool.eq_false_iff.mpr pb
      · exact hpre y hy

/-- C6: popping the head of the event list built by `_append_event`
(append then stable sort by time) fails on the empty list, and otherwise
returns an event of minimal time which, among the pending events of that
minimal time, is the earliest inserted (every event inserted before it
has strictly greater time). -/
theorem c6_pop_earliest_min :
    popEarliest ([] : List Event) = Except.error "pop from empty list" ∧
    ∀ es : List Event, es ≠ [] →
      ∃ x rest, popEarliest (buildQueue es) = Except.ok (x, rest) ∧
        (∀ y ∈ es, x.time ≤ y.time) ∧
        ∃ pre post, es = pre ++ x :: post ∧ ∀ y ∈ pre, x.time < y.time := by
  refine ⟨rfl, ?_⟩
  intro es hne
  have hperm := buildQueue_perm es
  have hsorted := buildQueue_sorted es
  cases hq : buildQueue es with
  | nil =>
    exfalso
    rw [hq] at hperm
    exact hne hperm.nil_eq.symm
  | cons x rest =>
    rw [hq] at hperm hsorted
    have hmin : ∀ y ∈ es, x.time ≤ y.time := by
      intro y hy
      have hy2 : y ∈ x :: rest := hperm.mem_iff.mpr hy
      rcases List.mem_cons.mp hy2 with rfl | hy2
      · exact le_refl _
      · exact List.rel_of_sorted_cons hsorted y hy2
    refine ⟨x, rest, rfl, hmin, ?_⟩
    have hfe : es.filter (fun z => decide (z.time = x.time)) =
        x :: rest.filter (fun z => decide (z.time = x.time)) := by
      rw [← buildQueue_filter es x.time, hq, List.filter_cons, if_pos (by simp)]
    obtain ⟨pre, post, hsplit, hpre⟩ :=
      filter_eq_cons_split (fun z => decide (z.time = x.time)) es x _ hfe
    refine ⟨pre, post, hsplit, ?_⟩
    intro y hy
    have hyes : y ∈ es := by
      rw [hsplit]
      exact List.mem_append.mpr (Or.inl hy)
    have hle := hmin y hyes
    have hney : ¬ y.time = x.time := by simpa using hpre y hy
    exact lt_of_le_of_ne hle (fun hc => hney hc.symm)

theorem c6_witness :
    ∃ x rest,
      popEarliest (buildQueue [Event.mk EType.a 2 1, Event.mk EType.a 1 2]) =
        Except.ok (x, rest) ∧
      (∀ y ∈ [Event.mk EType.a 2 1, Event.mk EType.a 1 2], x.time ≤ y.time) ∧
      ∃ pre post, [Event.mk EType.a 2 1, Event.mk EType.a 1 2] = pre ++ x :: post ∧
        ∀ y ∈ pre, x.time < y.time :=
  c6_pop_earliest_min.2 [Event.mk EType.a 2 1, Event.mk EType.a 1 2] (by simp)
